import Mathlib

/-!
Verification of the banner-generator compositing and layout core
(`src/Banner-generator.py`) against its specification.

The Python source is shallowly embedded below.  Conventions used throughout:

* Python machine integers are modelled as `ℤ` (or `ℕ` for sizes), Python
  floats as `ℚ` (the source only ever multiplies/divides small decimal
  constants, so exact rational arithmetic is the intended real-number
  semantics).
* Python `//` (floor division) is `Int.fdiv`; Python `int(...)` truncation
  toward zero is `pyInt`.
* Code that can raise returns `Except String _`; the error string records
  the Python exception.
* Calls into the imaging library (PIL) are modelled at the level of their
  documented contracts: image sizes and pixel accessor functions.  The
  resampling filter of `Image.resize` is kept abstract (a `sample`
  parameter), since the claims do not depend on the filter kernel.
* `str.split()` / `str.strip()` are translated to executable functions over
  `String.data` (`pySplit` / `pyStrip`) implementing Python's semantics of
  splitting on whitespace runs and trimming whitespace at both ends.
-/

/-- Python whitespace test on a character (`str.split()` / `str.strip()`). -/
def wsB (c : Char) : Bool := c.isWhitespace

/-- Worker for `pySplit`: walks the characters, `acc` holds the reversed
characters of the word currently being read. -/
def splitWsAux : List Char → List Char → List String
  | [], acc => if acc = [] then [] else [String.mk acc.reverse]
  | c :: cs, acc =>
    if wsB c then
      if acc = [] then splitWsAux cs []
      else String.mk acc.reverse :: splitWsAux cs []
    else splitWsAux cs (c :: acc)

/-- Python `s.split()`: split on runs of whitespace, dropping empty pieces. -/
def pySplit (s : String) : List String := splitWsAux s.data []

/-- Characters of a string with leading and trailing whitespace removed. -/
def stripData (l : List Char) : List Char :=
  ((l.dropWhile wsB).reverse.dropWhile wsB).reverse

/-- Python `s.strip()`. -/
def pyStrip (s : String) : String := String.mk (stripData s.data)

/-- Join strings with a separator (`sep.join(...)` with no trailing sep). -/
def myIntercalate (sep : String) : List String → String
  | [] => ""
  | [x] => x
  | x :: y :: xs => x ++ sep ++ myIntercalate sep (y :: xs)

/-- Join words with single spaces, as the wrap loop builds its lines. -/
def joinSpace : List String → String := myIntercalate " "

/-- A word as produced by `str.split()`: non-empty and whitespace-free. -/
def CleanWord (w : String) : Prop :=
  w.data ≠ [] ∧ ∀ c ∈ w.data, wsB c = false

/-- Python `int(...)` on a real value: truncation toward zero. -/
def pyInt (q : ℚ) : ℤ := if 0 ≤ q then ⌊q⌋ else ⌈q⌉

/-- The word-wrap loop shared by `draw_text` (src lines 352-361) and
`draw_text_multiline` (src lines 185-194):

    lines, line = [], ""
    for word in words:
        trial = (line + " " + word).strip()
        ww, _ = measure(trial)
        if not line or ww <= max_w:
            line = trial
        else:
            lines.append(line); line = word
    if line: lines.append(line)

`meas` is the text measurement `draw.textbbox` width (integer pixels). -/
def wrapWords (meas : String → ℤ) (maxW : ℤ) : List String → String → List String
  | [], line => if line = "" then [] else [line]
  | w :: ws, line =>
    let trial := pyStrip (line ++ " " ++ w)
    if line = "" ∨ meas trial ≤ maxW then wrapWords meas maxW ws trial
    else line :: wrapWords meas maxW ws w

/-- `max_w = int(W * 0.9)` from the source. -/
def draw_text_max_w (W : ℕ) : ℤ := pyInt ((W : ℚ) * (9 / 10))

/-- The list of wrapped lines produced by `draw_text` for text `txt` on a
canvas of width `W` (the rest of `draw_text` only renders these lines). -/
def draw_text_lines (meas : String → ℤ) (W : ℕ) (txt : String) : List String :=
  wrapWords meas (draw_text_max_w W) (pySplit txt) ""

/-- Font size in pixels: `max(12, int(W * ratio))` (src lines 177 and 343). -/
def draw_text_font_px (W : ℕ) (ratio : ℚ) : ℤ :=
  max 12 (pyInt ((W : ℚ) * ratio))

/-- Modelled from the spec: font size `max(12, round(canvasWidth * fontSizeRatio))`,
with `round` the usual rounding to the nearest integer. -/
def specFontSize (W : ℕ) (ratio : ℚ) : ℤ :=
  max 12 (round ((W : ℚ) * ratio))

/-- Modelled from the spec: the greedy word wrap described in the spec,
with lines kept as word lists.  Words are appended to the current line
while the measured width stays at most `0.9 × W`; a new line starts when
the next word would exceed it; a single word wider than the limit still
forms its own line. -/
def specGreedyWrap (meas : String → ℤ) (W : ℕ) :
    List String → List String → List (List String)
  | [], cur => if cur = [] then [] else [cur]
  | w :: ws, cur =>
    if cur = [] then specGreedyWrap meas W ws [w]
    else if (meas (joinSpace (cur ++ [w])) : ℚ) ≤ 9 / 10 * (W : ℚ) then
      specGreedyWrap meas W ws (cur ++ [w])
    else cur :: specGreedyWrap meas W ws [w]

/-- The anchor-offset computation of `place_image` (src lines 218-225),
translated statement by statement (each Python `if` reassigns):

    x, y = margin, (bh - o.height)//2
    if anchor == "Left-Center": x = margin
    if anchor == "Right-Center": x = bw - o.width - margin
    if anchor == "Bottom-Center": x, y = (bw - o.width)//2, bh - o.height - margin
    if anchor == "Top-Left": x, y = margin, margin
    if anchor == "Top-Right": x, y = bw - o.width - margin, margin
    if anchor == "Bottom-Left": x, y = margin, bh - o.height - margin
    if anchor == "Bottom-Right": x, y = bw - o.width - margin, bh - o.height - margin
-/
def place_image_offset (bw bh ow oh m : ℤ) (anchor : String) : ℤ × ℤ :=
  let x0 := m
  let y0 := Int.fdiv (bh - oh) 2
  let x1 := if anchor = "Left-Center" then m else x0
  let x2 := if anchor = "Right-Center" then bw - ow - m else x1
  let p3 := if anchor = "Bottom-Center" then (Int.fdiv (bw - ow) 2, bh - oh - m)
            else (x2, y0)
  let p4 := if anchor = "Top-Left" then (m, m) else p3
  let p5 := if anchor = "Top-Right" then (bw - ow - m, m) else p4
  let p6 := if anchor = "Bottom-Left" then (m, bh - oh - m) else p5
  if anchor = "Bottom-Right" then (bw - ow - m, bh - oh - m) else p6

/-- Modelled from the spec: the anchor→offset table of section 4.1, `none`
for tokens outside the table. -/
def specAnchorOffset (bw bh ow oh m : ℤ) : String → Option (ℤ × ℤ)
  | "Top-Left" => some (m, m)
  | "Top-Right" => some (bw - ow - m, m)
  | "Bottom-Left" => some (m, bh - oh - m)
  | "Bottom-Right" => some (bw - ow - m, bh - oh - m)
  | "Left-Center" => some (m, Int.fdiv (bh - oh) 2)
  | "Right-Center" => some (bw - ow - m, Int.fdiv (bh - oh) 2)
  | "Bottom-Center" => some (Int.fdiv (bw - ow) 2, bh - oh - m)
  | _ => none

/-- The seven anchor tokens named by the claim. -/
def anchorTokens : List String :=
  ["Top-Left", "Top-Right", "Bottom-Left", "Bottom-Right",
   "Left-Center", "Right-Center", "Bottom-Center"]

/-- An image reduced to its size, for the claims that only concern
placement geometry and success/failure. -/
structure PILSize where
  width : ℕ
  height : ℕ

/-- Resized overlay dimensions from `place_image` (src lines 214-215):

    scale = target_w / max(1, overlay.width)
    new_size = (max(1,int(overlay.width*scale)), max(1,int(overlay.height*scale)))
-/
def resized_size (ow oh : ℕ) (target_w : ℤ) : ℤ × ℤ :=
  (max 1 (pyInt ((ow : ℚ) * ((target_w : ℚ) / ((max 1 ow : ℕ) : ℚ)))),
   max 1 (pyInt ((oh : ℚ) * ((target_w : ℚ) / ((max 1 ow : ℕ) : ℚ)))))

/-- `place_image` (src lines 212-227).  The final
`base.alpha_composite(o, dest=(x,y))` is a PIL call whose documented
contract raises `ValueError("Destination must be non-negative")` when either
destination coordinate is negative, and otherwise composites in place,
silently clipping any part of the overlay that extends beyond the right or
bottom edge of `base`; the canvas object and its size are unchanged. -/
def place_image (base overlay : PILSize) (target_w : ℤ) (anchor : String) (margin : ℤ) :
    Except String PILSize :=
  let ns := resized_size overlay.width overlay.height target_w
  let xy := place_image_offset (base.width : ℤ) (base.height : ℤ) ns.1 ns.2 margin anchor
  if xy.1 < 0 ∨ xy.2 < 0 then Except.error "ValueError: Destination must be non-negative"
  else Except.ok base

/-- What `choose_best_pipe_for_background` observes about a readable
candidate file: its PIL mode and the minimum of its alpha channel
(`im.getchannel("A").getextrema()[0]`). -/
structure PipeImg where
  mode : String
  alphaMin : ℕ

/-- The candidate loop of `choose_best_pipe_for_background`
(src lines 244-253): `openImg p = none` models `Image.open` raising, which
the `except: continue` skips; otherwise the candidate goes to `rgba_first`
when `im.mode == "RGBA" and im.getchannel("A").getextrema()[0] < 255`, else
to `others`.  Input order is preserved in both lists. -/
def pipe_partition (openImg : String → Option PipeImg) :
    List String → List String × List String
  | [] => ([], [])
  | p :: ps =>
    let rest := pipe_partition openImg ps
    match openImg p with
    | none => rest
    | some im =>
      if im.mode = "RGBA" ∧ im.alphaMin < 255 then (p :: rest.1, rest.2)
      else (rest.1, p :: rest.2)

/-- `choose_best_pipe_for_background` (src lines 237-256).  `candidates` is
the sorted wildcard listing of `assets/pipes`; `ordered[0]` on an empty
`ordered` is Python's `IndexError`. -/
def choose_best_pipe_for_background (openImg : String → Option PipeImg)
    (candidates : List String) : Except String (Option String) :=
  if candidates = [] then Except.ok none
  else
    let parts := pipe_partition openImg candidates
    match parts.1 ++ parts.2 with
    | [] => Except.error "IndexError: list index out of range"
    | p :: _ => Except.ok (some p)

/-- A Python value passed to `hex_to_rgba`: a string, or a value of any
other type (for which `isinstance(hex_str, str)` is false). -/
inductive PyVal where
  | str (s : String)
  | nonStr

/-- Value of an ASCII hexadecimal digit. -/
def hexDigitVal (c : Char) : Option ℕ :=
  if '0' ≤ c ∧ c ≤ '9' then some (c.toNat - '0'.toNat)
  else if 'a' ≤ c ∧ c ≤ 'f' then some (c.toNat - 'a'.toNat + 10)
  else if 'A' ≤ c ∧ c ≤ 'F' then some (c.toNat - 'A'.toNat + 10)
  else none

/-- Python `int(s, 16)` for the two-character slices `hex_str[i:i+2]`
taken by `hex_to_rgba`: two hex digits, or a sign/whitespace character
next to a single hex digit (Python strips whitespace and accepts a sign);
anything else raises `ValueError`, modelled as `none`. -/
def pyIntBase16Pair (c1 c2 : Char) : Option ℤ :=
  match hexDigitVal c1, hexDigitVal c2 with
  | some d1, some d2 => some (16 * (d1 : ℤ) + (d2 : ℤ))
  | _, _ =>
    if c1 = '+' then (hexDigitVal c2).map (fun d => (d : ℤ))
    else if c1 = '-' then (hexDigitVal c2).map (fun d => -(d : ℤ))
    else if wsB c1 then (hexDigitVal c2).map (fun d => (d : ℤ))
    else if wsB c2 then (hexDigitVal c1).map (fun d => (d : ℤ))
    else none

/-- `hex_to_rgba` (src lines 169-172):

    if isinstance(hex_str, str) and hex_str.startswith("#") and len(hex_str) == 7:
        return tuple(int(hex_str[i:i+2], 16) for i in (1,3,5)) + (a,)
    return (255,255,255,a)

The guard (string, leading `#`, length 7) is the 7-character pattern below;
a failing `int(_, 16)` inside the guarded branch propagates as an error. -/
def hex_to_rgba (v : PyVal) (a : ℤ) : Except String (ℤ × ℤ × ℤ × ℤ) :=
  match v with
  | PyVal.nonStr => Except.ok (255, 255, 255, a)
  | PyVal.str s =>
    match s.data with
    | ['#', c1, c2, c3, c4, c5, c6] =>
      match pyIntBase16Pair c1 c2, pyIntBase16Pair c3 c4, pyIntBase16Pair c5 c6 with
      | some r, some g, some b => Except.ok (r, g, b, a)
      | _, _, _ => Except.error "ValueError: invalid literal for int() with base 16"
    | _ => Except.ok (255, 255, 255, a)

/-- An RGBA image with rational channel values, for the blankness claims. -/
structure QImage where
  width : ℕ
  height : ℕ
  pix : ℕ → ℕ → ℚ × ℚ × ℚ × ℚ

/-- PIL `img.crop((l, t, r, b))`: size `(r-l, b-t)`, pixels shifted. -/
def cropQ (img : QImage) (l t r b : ℕ) : QImage :=
  QImage.mk (r - l) (b - t) (fun x y => img.pix (l + x) (t + y))

/-- `bg_img.crop((0, 0, w//3, h))` from `auto_side_choice` (src line 261). -/
def left_region (img : QImage) : QImage :=
  cropQ img 0 0 (img.width / 3) img.height

/-- `bg_img.crop((w - w//3, 0, w, h))` from `auto_side_choice` (src line 262). -/
def right_region (img : QImage) : QImage :=
  cropQ img (img.width - img.width / 3) 0 img.width img.height

/-- PIL `ImageStat.Stat(gray).var` for one band over a list of pixel
values: `sum2/count - (sum/count)^2`. -/
def pyVariance (l : List ℚ) : ℚ :=
  (l.map (fun x => x ^ 2)).sum / (l.length : ℚ) - (l.sum / (l.length : ℚ)) ^ 2

/-- `image_blankness_score` (src lines 229-235): grayscale conversion and
the 64×64 downsample (`img.convert("L").resize((64,64))`) are the abstract
`sampleL`, which returns the sampled pixel values; the score is
`1.0 / (var + 1e-6)`. -/
def image_blankness_score (sampleL : QImage → List ℚ) (img : QImage) : ℚ :=
  1 / (pyVariance (sampleL img) + 1 / 1000000)

/-- `auto_side_choice` (src lines 258-265). -/
def auto_side_choice (sampleL : QImage → List ℚ) (bg : QImage) : String :=
  if image_blankness_score sampleL (left_region bg) ≥
      image_blankness_score sampleL (right_region bg)
  then "Left-Center" else "Right-Center"

/-- An 8-bit RGBA image (channel values as naturals). -/
structure RGBAImage where
  width : ℕ
  height : ℕ
  pix : ℕ → ℕ → ℕ × ℕ × ℕ × ℕ

/-- A single-band ("L") image. -/
structure GrayImage where
  width : ℕ
  height : ℕ
  pix : ℕ → ℕ → ℕ

/-- PIL's fixed-point division by 255 with rounding, the C macro
`MULDIV255(a, b, tmp)` = `SHIFTFORDIV255(a*b + 128)`. -/
def muldiv255 (a b : ℕ) : ℕ := ((a * b + 128) / 256 + (a * b + 128)) / 256

/-- PIL's per-channel blend under an L-mode mask value `m`:
`BLEND(m, bg, fg)` = `MULDIV255(bg, 255-m) + MULDIV255(fg, m)`. -/
def blendChan (bgc fgc m : ℕ) : ℕ := muldiv255 bgc (255 - m) + muldiv255 fgc m

/-- Channelwise blend of two RGBA pixels under a mask value. -/
def blendPix (bgp fgp : ℕ × ℕ × ℕ × ℕ) (m : ℕ) : ℕ × ℕ × ℕ × ℕ :=
  (blendChan bgp.1 fgp.1 m,
   blendChan bgp.2.1 fgp.2.1 m,
   blendChan bgp.2.2.1 fgp.2.2.1 m,
   blendChan bgp.2.2.2 fgp.2.2.2 m)

/-- PIL `Image.composite(image1, image2, mask)`: a copy of `image2` with
`image1` pasted through the mask; the result has `image2`'s size. -/
def imageComposite (im1 im2 : RGBAImage) (mask : GrayImage) : RGBAImage :=
  RGBAImage.mk im2.width im2.height
    (fun x y => blendPix (im2.pix x y) (im1.pix x y) (mask.pix x y))

/-- PIL `Image.linear_gradient("L")`: a 256×256 image whose value at
`(x, y)` is `y` (a top-to-bottom black-to-white ramp). -/
def linGradientL : ℕ → ℕ → ℕ := fun _ y => y

/-- `gradient_fallback` (src lines 111-117).  `sample src w h x y` models
`Image.resize`: the value at `(x, y)` of the source image `src` (a 256×256
"L" image) stretched to `w × h`; the filter kernel is abstract. -/
def gradient_fallback (sample : (ℕ → ℕ → ℕ) → ℕ → ℕ → ℕ → ℕ → ℕ)
    (width height : ℕ) : RGBAImage :=
  let base := RGBAImage.mk width height (fun _ _ => (20, 20, 28, 255))
  let overlay := RGBAImage.mk width height (fun _ _ => (120, 60, 20, 255))
  let mask := GrayImage.mk width height (fun x y => sample linGradientL width height x y)
  imageComposite overlay base mask

/-- `call_ai_background` (src lines 119-131).  `netResult = none` models
every failure of the guarded block (network error, `raise_for_status` on a
non-2xx response, or image decode failure), all caught by the bare
`except`; `some img` models a successful decode. -/
def call_ai_background (sample : (ℕ → ℕ → ℕ) → ℕ → ℕ → ℕ → ℕ → ℕ)
    (apiUrl : String) (netResult : Option RGBAImage) (prompt : String)
    (width height : ℕ) : RGBAImage :=
  if apiUrl = "" ∨ pyStrip prompt = "" then gradient_fallback sample width height
  else
    match netResult with
    | some img => img
    | none => gradient_fallback sample width height

/-! ### String and whitespace infrastructure -/

theorem data_append (s t : String) : (s ++ t).data = s.data ++ t.data := rfl

theorem strEq_of_data {s t : String} (h : s.data = t.data) : s = t := by
  cases s; cases t; exact congrArg String.mk h

theorem data_space : (" " : String).data = [' '] := rfl

theorem str_empty_iff (s : String) : s = "" ↔ s.data = [] := by
  constructor
  · intro h; rw [h]
  · intro h; exact strEq_of_data h

theorem dropWhile_eq_self_of_all {l : List Char} (h : ∀ c ∈ l, wsB c = false) :
    l.dropWhile wsB = l := by
  induction l with
  | nil => rfl
  | cons c cs ih =>
    rw [List.dropWhile_cons]
    simp [h c (List.mem_cons_self c cs)]

theorem joinSpace_nil : joinSpace [] = "" := rfl

theorem joinSpace_single (w : String) : joinSpace [w] = w := rfl

theorem joinSpace_cons_cons (a b : String) (r : List String) :
    joinSpace (a :: b :: r) = a ++ " " ++ joinSpace (b :: r) := rfl

theorem js_append_singleton (w : String) :
    ∀ (acc : List String), acc ≠ [] →
      joinSpace (acc ++ [w]) = joinSpace acc ++ " " ++ w
  | [], h => absurd rfl h
  | [a], _ => rfl
  | a :: b :: r, _ => by
    have ih := js_append_singleton w (b :: r) (by simp)
    show joinSpace (a :: ((b :: r) ++ [w])) = joinSpace (a :: b :: r) ++ " " ++ w
    rcases hbr : (b :: r) ++ [w] with _ | ⟨x, xs⟩
    · simp at hbr
    · rw [joinSpace_cons_cons, ← hbr, ih, joinSpace_cons_cons]
      apply strEq_of_data
      simp [data_append]

theorem js_head_nonws {a : String} (ha : CleanWord a) (r : List String) :
    ∃ c t, (joinSpace (a :: r)).data = c :: t ∧ wsB c = false := by
  obtain ⟨hne, hws⟩ := ha
  obtain ⟨c, t, hct⟩ := List.exists_cons_of_ne_nil hne
  rcases r with _ | ⟨b, r⟩
  · exact ⟨c, t, by rw [joinSpace_single, hct], hws c (by rw [hct]; simp)⟩
  · refine ⟨c, t ++ (' ' :: (joinSpace (b :: r)).data), ?_, hws c (by rw [hct]; simp)⟩
    rw [joinSpace_cons_cons, data_append, data_append, hct, data_space]
    simp

theorem js_rev_head_nonws :
    ∀ (acc : List String), acc ≠ [] → (∀ x ∈ acc, CleanWord x) →
      ∃ c t, (joinSpace acc).data.reverse = c :: t ∧ wsB c = false
  | [], h, _ => absurd rfl h
  | [a], _, hcl => by
    obtain ⟨hne, hws⟩ := hcl a (by simp)
    have : a.data.reverse ≠ [] := by simpa using hne
    obtain ⟨c, t, hct⟩ := List.exists_cons_of_ne_nil this
    refine ⟨c, t, by rw [joinSpace_single, hct], ?_⟩
    have : c ∈ a.data.reverse := by rw [hct]; simp
    exact hws c (List.mem_reverse.mp this)
  | a :: b :: r, _, hcl => by
    obtain ⟨c, t, hct, hcw⟩ := js_rev_head_nonws (b :: r) (by simp)
      (fun x hx => hcl x (List.mem_cons_of_mem a hx))
    refine ⟨c, t ++ (' ' :: a.data.reverse), ?_, hcw⟩
    rw [joinSpace_cons_cons, data_append, data_append, data_space,
      List.reverse_append, List.reverse_append, hct]
    simp

theorem js_ne_empty {acc : List String} (hne : acc ≠ [])
    (hcl : ∀ x ∈ acc, CleanWord x) : joinSpace acc ≠ "" := by
  rcases acc with _ | ⟨a, r⟩
  · exact absurd rfl hne
  · obtain ⟨c, t, hct, _⟩ := js_head_nonws (hcl a (by simp)) r
    intro h
    rw [str_empty_iff] at h
    rw [h] at hct
    exact List.noConfusion hct

theorem stripData_eq_self {l : List Char}
    (h1 : l.dropWhile wsB = l) (h2 : l.reverse.dropWhile wsB = l.reverse) :
    stripData l = l := by
  unfold stripData
  rw [h1, h2, List.reverse_reverse]

/-- The `trial = (line + " " + word).strip()` step of the wrap loop: on a
line built from clean words and a clean next word, stripping yields the
space-join with the word appended. -/
theorem trial_eq (acc : List String) (w : String)
    (hacc : ∀ x ∈ acc, CleanWord x) (hw : CleanWord w) :
    pyStrip (joinSpace acc ++ " " ++ w) = joinSpace (acc ++ [w]) := by
  rcases acc with _ | ⟨a, r⟩
  · show pyStrip ("" ++ " " ++ w) = joinSpace [w]
    rw [joinSpace_single]
    apply strEq_of_data
    show stripData (("" ++ " " ++ w).data) = w.data
    have hd : ("" ++ " " ++ w).data = ' ' :: w.data := by
      rw [data_append, data_append, data_space]; rfl
    rw [hd]
    unfold stripData
    rw [List.dropWhile_cons]
    have hsp : wsB ' ' = true := by decide
    rw [if_pos hsp]
    rw [dropWhile_eq_self_of_all hw.2]
    rw [dropWhile_eq_self_of_all (fun c hc => hw.2 c (List.mem_reverse.mp hc))]
    exact List.reverse_reverse _
  · rw [js_append_singleton w (a :: r) (by simp)]
    apply strEq_of_data
    show stripData ((joinSpace (a :: r) ++ " " ++ w).data) = _
    obtain ⟨c, t, hct, hcw⟩ := js_head_nonws (hacc a (by simp)) r
    obtain ⟨c2, t2, hct2⟩ := List.exists_cons_of_ne_nil hw.1
    apply stripData_eq_self
    · rw [data_append, data_append, hct]
      show List.dropWhile wsB (c :: (t ++ (" " : String).data ++ w.data)) = _
      rw [List.dropWhile_cons, hcw]
      simp
    · rw [data_append, data_append, List.reverse_append, List.reverse_append]
      have hrevne : w.data.reverse ≠ [] := by
        simpa [List.reverse_eq_nil_iff] using hw.1
      obtain ⟨c3, t3, hct3⟩ := List.exists_cons_of_ne_nil hrevne
      have hc3 : wsB c3 = false := by
        refine hw.2 c3 (List.mem_reverse.mp ?_)
        rw [hct3]; simp
      rw [hct3, List.cons_append, List.dropWhile_cons, hc3]
      simp

/-- `splitWsAux` consuming a whitespace-free word followed by a whitespace
character emits the pending characters plus the word, then continues. -/
theorem splitWsAux_word_append (rest : List Char) (c0 : Char) (hc0 : wsB c0 = true) :
    ∀ (wd acc : List Char), (∀ c ∈ wd, wsB c = false) →
      acc.reverse ++ wd ≠ [] →
      splitWsAux (wd ++ c0 :: rest) acc =
        String.mk (acc.reverse ++ wd) :: splitWsAux rest []
  | [], acc, _, hne => by
    have hacc : acc ≠ [] := by
      intro h; apply hne; rw [h]; simp
    show splitWsAux (c0 :: rest) acc = _
    simp [splitWsAux, hc0, hacc]
  | c :: wd, acc, hcl, _ => by
    have hc : wsB c = false := hcl c (by simp)
    show splitWsAux (c :: (wd ++ c0 :: rest)) acc = _
    simp only [splitWsAux, hc, Bool.false_eq_true, if_false]
    rw [splitWsAux_word_append rest c0 hc0 wd (c :: acc)
      (fun x hx => hcl x (by simp [hx])) (by simp)]
    simp

/-- `splitWsAux` consuming a final whitespace-free word. -/
theorem splitWsAux_word_end :
    ∀ (wd acc : List Char), (∀ c ∈ wd, wsB c = false) →
      acc.reverse ++ wd ≠ [] →
      splitWsAux wd acc = [String.mk (acc.reverse ++ wd)]
  | [], acc, _, hne => by
    have hacc : acc ≠ [] := by
      intro h; apply hne; rw [h]; simp
    show splitWsAux [] acc = _
    simp [splitWsAux, hacc]
  | c :: wd, acc, hcl, _ => by
    have hc : wsB c = false := hcl c (by simp)
    show splitWsAux (c :: wd) acc = _
    simp only [splitWsAux, hc, Bool.false_eq_true, if_false]
    rw [splitWsAux_word_end wd (c :: acc) (fun x hx => hcl x (by simp [hx])) (by simp)]
    simp

/-- Splitting across a whitespace character splits independently on the
two sides (the pending word, if any, is closed at that character). -/
theorem splitWsAux_ws_split (b : List Char) (c0 : Char) (hc0 : wsB c0 = true) :
    ∀ (a acc : List Char),
      splitWsAux (a ++ c0 :: b) acc = splitWsAux a acc ++ splitWsAux b []
  | [], acc => by
    show splitWsAux (c0 :: b) acc = splitWsAux [] acc ++ splitWsAux b []
    by_cases h : acc = [] <;> simp [splitWsAux, hc0, h]
  | d :: a, acc => by
    show splitWsAux (d :: (a ++ c0 :: b)) acc = splitWsAux (d :: a) acc ++ _
    by_cases hd : wsB d
    · by_cases h : acc = [] <;>
        simp [splitWsAux, hd, h, splitWsAux_ws_split b c0 hc0 a []]
    · rw [Bool.not_eq_true] at hd
      simp only [splitWsAux, hd, Bool.false_eq_true, if_false]
      exact splitWsAux_ws_split b c0 hc0 a (d :: acc)

/-- Splitting the space-join of clean words recovers the words. -/
theorem pySplit_joinSpace :
    ∀ (ws : List String), (∀ w ∈ ws, CleanWord w) →
      pySplit (joinSpace ws) = ws
  | [], _ => rfl
  | [w], hcl => by
    obtain ⟨hne, hws⟩ := hcl w (by simp)
    show splitWsAux w.data [] = [w]
    rw [splitWsAux_word_end w.data [] hws (by simpa using hne)]
    simp
  | w :: y :: r, hcl => by
    obtain ⟨hne, hws⟩ := hcl w (by simp)
    show splitWsAux ((joinSpace (w :: y :: r)).data) [] = _
    rw [joinSpace_cons_cons, data_append, data_append, data_space]
    have : w.data ++ [' '] ++ (joinSpace (y :: r)).data =
        w.data ++ ' ' :: (joinSpace (y :: r)).data := by simp
    rw [this]
    rw [splitWsAux_word_append ((joinSpace (y :: r)).data) ' ' (by decide)
      w.data [] hws (by simpa using hne)]
    have ih := pySplit_joinSpace (y :: r) (fun x hx => hcl x (List.mem_cons_of_mem w hx))
    unfold pySplit at ih
    rw [ih]
    simp

/-- Every word produced by `splitWsAux` is clean, provided the pending
characters are non-whitespace. -/
theorem splitWsAux_clean :
    ∀ (l acc : List Char), (∀ c ∈ acc, wsB c = false) →
      ∀ w ∈ splitWsAux l acc, CleanWord w
  | [], acc, hacc => by
    intro w hw
    show CleanWord w
    by_cases h : acc = []
    · rw [h] at hw; simp [splitWsAux] at hw
    · unfold splitWsAux at hw
      rw [if_neg h] at hw
      rcases List.mem_singleton.mp hw with rfl
      refine ⟨by simpa [List.reverse_eq_nil_iff] using h, ?_⟩
      intro c hc
      exact hacc c (List.mem_reverse.mp hc)
  | c :: cs, acc, hacc => by
    intro w hw
    unfold splitWsAux at hw
    by_cases hc : wsB c
    · rw [hc] at hw
      by_cases h : acc = []
      · rw [if_pos h] at hw
        exact splitWsAux_clean cs [] (by simp) w hw
      · rw [if_neg h] at hw
        rcases List.mem_cons.mp hw with rfl | hw2
        · refine ⟨by simpa [List.reverse_eq_nil_iff] using h, ?_⟩
          intro d hd
          exact hacc d (List.mem_reverse.mp hd)
        · exact splitWsAux_clean cs [] (by simp) w hw2
    · rw [Bool.not_eq_true] at hc
      rw [hc] at hw
      refine splitWsAux_clean cs (c :: acc) ?_ w hw
      intro d hd
      rcases List.mem_cons.mp hd with rfl | hd2
      · exact hc
      · exact hacc d hd2

/-- Every word of `pySplit s` is non-empty and whitespace-free. -/
theorem pySplit_clean (s : String) : ∀ w ∈ pySplit s, CleanWord w :=
  splitWsAux_clean s.data [] (by simp)

/-- Splitting a join over a single-whitespace-character separator is the
concatenation of the splits. -/
theorem pySplit_intercalate (c0 : Char) (hc0 : wsB c0 = true) :
    ∀ (lines : List String),
      pySplit (myIntercalate (String.mk [c0]) lines) = (lines.map pySplit).flatten
  | [] => rfl
  | [l] => by simp [myIntercalate]
  | l :: l2 :: r => by
    have step : pySplit (myIntercalate (String.mk [c0]) (l :: l2 :: r)) =
        pySplit l ++ pySplit (myIntercalate (String.mk [c0]) (l2 :: r)) := by
      show splitWsAux ((l ++ String.mk [c0] ++ myIntercalate (String.mk [c0]) (l2 :: r)).data) [] = _
      rw [data_append, data_append]
      have h2 : l.data ++ (String.mk [c0]).data ++ (myIntercalate (String.mk [c0]) (l2 :: r)).data =
          l.data ++ c0 :: (myIntercalate (String.mk [c0]) (l2 :: r)).data := by simp
      rw [h2, splitWsAux_ws_split ((myIntercalate (String.mk [c0]) (l2 :: r)).data) c0 hc0 l.data []]
      rfl
    rw [step, pySplit_intercalate c0 hc0 (l2 :: r)]
    simp

/-- Flattening the words of the wrapped lines recovers the input words:
invariant of the wrap loop, with `acc` the words of the current line. -/
theorem wrapWords_flat (meas : String → ℤ) (maxW : ℤ) :
    ∀ (ws acc : List String), (∀ w ∈ ws, CleanWord w) → (∀ w ∈ acc, CleanWord w) →
      ((wrapWords meas maxW ws (joinSpace acc)).map pySplit).flatten = acc ++ ws
  | [], acc, _, hacc => by
    show ((if joinSpace acc = "" then [] else [joinSpace acc]).map pySplit).flatten = acc ++ []
    by_cases h : acc = []
    · subst h; simp [joinSpace_nil]
    · rw [if_neg (js_ne_empty h hacc)]
      simp [pySplit_joinSpace acc hacc]
  | w :: ws, acc, hws, hacc => by
    have hw : CleanWord w := hws w (by simp)
    have hws2 : ∀ x ∈ ws, CleanWord x := fun x hx => hws x (by simp [hx])
    rw [show wrapWords meas maxW (w :: ws) (joinSpace acc) =
        (if joinSpace acc = "" ∨ meas (pyStrip (joinSpace acc ++ " " ++ w)) ≤ maxW
         then wrapWords meas maxW ws (pyStrip (joinSpace acc ++ " " ++ w))
         else joinSpace acc :: wrapWords meas maxW ws w) from rfl]
    rw [trial_eq acc w hacc hw]
    by_cases hcond : joinSpace acc = "" ∨ meas (joinSpace (acc ++ [w])) ≤ maxW
    · rw [if_pos hcond]
      have hcl2 : ∀ x ∈ acc ++ [w], CleanWord x := by
        intro x hx
        rcases List.mem_append.mp hx with h1 | h2
        · exact hacc x h1
        · rcases List.mem_singleton.mp h2 with rfl; exact hw
      rw [wrapWords_flat meas maxW ws (acc ++ [w]) hws2 hcl2]
      simp
    · rw [if_neg hcond]
      push_neg at hcond
      have hcl1 : ∀ x ∈ [w], CleanWord x := by
        intro x hx; rcases List.mem_singleton.mp hx with rfl; exact hw
      have ih := wrapWords_flat meas maxW ws [w] hws2 hcl1
      rw [joinSpace_single] at ih
      rw [List.map_cons, List.flatten_cons, ih, pySplit_joinSpace acc hacc]
      simp

/-- The comparison against `max_w = int(W * 0.9)` is the spec's comparison
against `0.9 × W`, since measured widths are integers. -/
theorem le_draw_text_max_w_iff (W : ℕ) (z : ℤ) :
    z ≤ draw_text_max_w W ↔ (z : ℚ) ≤ 9 / 10 * (W : ℚ) := by
  unfold draw_text_max_w pyInt
  have h0 : (0 : ℚ) ≤ (W : ℚ) * (9 / 10) := by positivity
  rw [if_pos h0, Int.le_floor]
  constructor <;> intro h <;> linarith

/-- The source wrap loop computes exactly the spec's greedy wrap. -/
theorem wrapWords_eq_specGreedyWrap (meas : String → ℤ) (W : ℕ) :
    ∀ (ws acc : List String), (∀ w ∈ ws, CleanWord w) → (∀ w ∈ acc, CleanWord w) →
      wrapWords meas (draw_text_max_w W) ws (joinSpace acc) =
        (specGreedyWrap meas W ws acc).map joinSpace
  | [], acc, _, hacc => by
    show (if joinSpace acc = "" then [] else [joinSpace acc]) = _
    by_cases h : acc = []
    · subst h; simp [specGreedyWrap, joinSpace_nil]
    · rw [if_neg (js_ne_empty h hacc)]
      simp [specGreedyWrap, h]
  | w :: ws, acc, hws, hacc => by
    have hw : CleanWord w := hws w (by simp)
    have hws2 : ∀ x ∈ ws, CleanWord x := fun x hx => hws x (by simp [hx])
    have hcl1 : ∀ x ∈ [w], CleanWord x := by
      intro x hx; rcases List.mem_singleton.mp hx with rfl; exact hw
    rw [show wrapWords meas (draw_text_max_w W) (w :: ws) (joinSpace acc) =
        (if joinSpace acc = "" ∨ meas (pyStrip (joinSpace acc ++ " " ++ w)) ≤ draw_text_max_w W
         then wrapWords meas (draw_text_max_w W) ws (pyStrip (joinSpace acc ++ " " ++ w))
         else joinSpace acc :: wrapWords meas (draw_text_max_w W) ws w) from rfl]
    rw [trial_eq acc w hacc hw]
    by_cases hacc0 : acc = []
    · subst hacc0
      rw [if_pos (Or.inl joinSpace_nil)]
      rw [show ([] : List String) ++ [w] = [w] from rfl]
      rw [wrapWords_eq_specGreedyWrap meas W ws [w] hws2 hcl1]
      simp [specGreedyWrap]
    · have hjs : joinSpace acc ≠ "" := js_ne_empty hacc0 hacc
      have hcl2 : ∀ x ∈ acc ++ [w], CleanWord x := by
        intro x hx
        rcases List.mem_append.mp hx with h1 | h2
        · exact hacc x h1
        · rcases List.mem_singleton.mp h2 with rfl; exact hw
      by_cases hle : meas (joinSpace (acc ++ [w])) ≤ draw_text_max_w W
      · rw [if_pos (Or.inr hle)]
        rw [wrapWords_eq_specGreedyWrap meas W ws (acc ++ [w]) hws2 hcl2]
        have hq : ((meas (joinSpace (acc ++ [w])) : ℤ) : ℚ) ≤ 9 / 10 * (W : ℚ) :=
          (le_draw_text_max_w_iff W _).mp hle
        simp [specGreedyWrap, hacc0, hq]
      · rw [if_neg (by rintro (h | h); exact hjs h; exact hle h)]
        have ih := wrapWords_eq_specGreedyWrap meas W ws [w] hws2 hcl1
        rw [joinSpace_single] at ih
        rw [ih]
        have hq : ¬ (((meas (joinSpace (acc ++ [w])) : ℤ) : ℚ) ≤ 9 / 10 * (W : ℚ)) :=
          fun h => hle ((le_draw_text_max_w_iff W _).mpr h)
        simp [specGreedyWrap, hacc0, hq]

/-- C2.  For every text and canvas width, the word wrap of `draw_text` /
`draw_text_multiline` is exactly the spec's greedy wrap: words are appended
to the current line while the measured width stays at most 0.9 × W, a new
line starts when the next word would exceed the limit, and a single word
wider than the limit still forms its own line (no character-level
breaking). -/
theorem draw_text_wrap_greedy_spec (meas : String → ℤ) (W : ℕ) (txt : String) :
    draw_text_lines meas W txt = (specGreedyWrap meas W (pySplit txt) []).map joinSpace := by
  unfold draw_text_lines
  rw [show ("" : String) = joinSpace [] from rfl]
  exact wrapWords_eq_specGreedyWrap meas W (pySplit txt) [] (pySplit_clean txt) (by simp)

/-- C10.  The wrap loses, duplicates and reorders no word: splitting the
newline-joined wrapped lines on whitespace recovers exactly the
whitespace-split word sequence of the input, for every measurement
function. -/
theorem draw_text_wrap_preserves_words (meas : String → ℤ) (W : ℕ) (txt : String) :
    pySplit (myIntercalate "\n" (draw_text_lines meas W txt)) = pySplit txt := by
  rw [show ("\n" : String) = String.mk ['\n'] from rfl,
    pySplit_intercalate '\n' (by decide) (draw_text_lines meas W txt)]
  unfold draw_text_lines
  rw [show ("" : String) = joinSpace [] from rfl,
    wrapWords_flat meas (draw_text_max_w W) (pySplit txt) [] (pySplit_clean txt) (by simp)]
  simp

/-- C9.  The wrap is idempotent: re-wrapping the text obtained by joining
the wrapped lines with single spaces yields the same lines. -/
theorem draw_text_wrap_idempotent (meas : String → ℤ) (W : ℕ) (txt : String) :
    draw_text_lines meas W (myIntercalate " " (draw_text_lines meas W txt)) =
      draw_text_lines meas W txt := by
  have h1 : pySplit (myIntercalate " " (draw_text_lines meas W txt)) = pySplit txt := by
    rw [show (" " : String) = String.mk [' '] from rfl,
      pySplit_intercalate ' ' (by decide) (draw_text_lines meas W txt)]
    unfold draw_text_lines
    rw [show ("" : String) = joinSpace [] from rfl,
      wrapWords_flat meas (draw_text_max_w W) (pySplit txt) [] (pySplit_clean txt) (by simp)]
    simp
  show wrapWords meas (draw_text_max_w W) (pySplit (myIntercalate " " (draw_text_lines meas W txt))) "" =
    wrapWords meas (draw_text_max_w W) (pySplit txt) ""
  rw [h1]

/-! ### Anchor offsets (C1) -/

/-- Halving a non-negative difference keeps the sum below the bound. -/
theorem fdiv_two_add_le {a x m : ℤ} (h1 : 0 ≤ x) (h2 : x ≤ a) (hm : 0 ≤ m) :
    Int.fdiv (a - x) 2 + x ≤ a + m := by
  rw [Int.fdiv_eq_ediv _ (by norm_num)]
  omega

/-- C1.  For each of the seven anchor tokens, `place_image` computes the
top-left paste offset exactly per the spec's anchor table, and whenever the
resized overlay fits inside the canvas and the margin is non-negative,
offset + overlay size stays within canvas size + margin in both axes. -/
theorem place_image_matches_anchor_table (bw bh ow oh m : ℤ) (a : String)
    (ha : a ∈ anchorTokens) :
    specAnchorOffset bw bh ow oh m a = some (place_image_offset bw bh ow oh m a) ∧
    (0 ≤ m → 0 ≤ ow → ow ≤ bw → 0 ≤ oh → oh ≤ bh →
      (place_image_offset bw bh ow oh m a).1 + ow ≤ bw + m ∧
      (place_image_offset bw bh ow oh m a).2 + oh ≤ bh + m) := by
  simp only [anchorTokens, List.mem_cons, List.not_mem_nil, or_false] at ha
  rcases ha with rfl | rfl | rfl | rfl | rfl | rfl | rfl
  · refine ⟨rfl, fun h1 h2 h3 h4 h5 => ⟨?_, ?_⟩⟩
    · show m + ow ≤ bw + m
      omega
    · show m + oh ≤ bh + m
      omega
  · refine ⟨rfl, fun h1 h2 h3 h4 h5 => ⟨?_, ?_⟩⟩
    · show bw - ow - m + ow ≤ bw + m
      omega
    · show m + oh ≤ bh + m
      omega
  · refine ⟨rfl, fun h1 h2 h3 h4 h5 => ⟨?_, ?_⟩⟩
    · show m + ow ≤ bw + m
      omega
    · show bh - oh - m + oh ≤ bh + m
      omega
  · refine ⟨rfl, fun h1 h2 h3 h4 h5 => ⟨?_, ?_⟩⟩
    · show bw - ow - m + ow ≤ bw + m
      omega
    · show bh - oh - m + oh ≤ bh + m
      omega
  · refine ⟨rfl, fun h1 h2 h3 h4 h5 => ⟨?_, ?_⟩⟩
    · show m + ow ≤ bw + m
      omega
    · show Int.fdiv (bh - oh) 2 + oh ≤ bh + m
      exact fdiv_two_add_le h4 h5 h1
  · refine ⟨rfl, fun h1 h2 h3 h4 h5 => ⟨?_, ?_⟩⟩
    · show bw - ow - m + ow ≤ bw + m
      omega
    · show Int.fdiv (bh - oh) 2 + oh ≤ bh + m
      exact fdiv_two_add_le h4 h5 h1
  · refine ⟨rfl, fun h1 h2 h3 h4 h5 => ⟨?_, ?_⟩⟩
    · show Int.fdiv (bw - ow) 2 + ow ≤ bw + m
      exact fdiv_two_add_le h2 h3 h1
    · show bh - oh - m + oh ≤ bh + m
      omega

/-- Concrete instance of `place_image_matches_anchor_table`. -/
theorem place_image_matches_anchor_table_witness :
    specAnchorOffset 1080 1080 200 100 24 "Top-Right" =
      some (place_image_offset 1080 1080 200 100 24 "Top-Right") ∧
    (place_image_offset 1080 1080 200 100 24 "Top-Right").1 + 200 ≤ 1080 + 24 ∧
    (place_image_offset 1080 1080 200 100 24 "Top-Right").2 + 100 ≤ 1080 + 24 := by
  have h := place_image_matches_anchor_table 1080 1080 200 100 24 "Top-Right" (by decide)
  exact ⟨h.1, h.2 (by decide) (by decide) (by decide) (by decide) (by decide)⟩

/-! ### Blankness heuristic (C3) -/

/-- A sum of squares is non-negative. -/
theorem sumsq_nonneg (l : List ℚ) : 0 ≤ (l.map (fun x => x ^ 2)).sum := by
  induction l with
  | nil => simp
  | cons a t ih =>
    simp only [List.map_cons, List.sum_cons]
    positivity

/-- Cauchy–Schwarz for lists: the square of the sum is at most the length
times the sum of squares. -/
theorem list_sq_sum_le (l : List ℚ) :
    l.sum ^ 2 ≤ (l.length : ℚ) * (l.map (fun x => x ^ 2)).sum := by
  induction l with
  | nil => simp
  | cons a t ih =>
    rcases t with _ | ⟨b, t2⟩
    · norm_num
    · have hQ0 : 0 ≤ ((b :: t2).map (fun x => x ^ 2)).sum := sumsq_nonneg _
      have hn1 : (1 : ℚ) ≤ (((b :: t2).length : ℕ) : ℚ) := by
        have h1 : 1 ≤ (b :: t2).length := by simp
        exact_mod_cast h1
      rw [List.sum_cons, List.map_cons, List.sum_cons, List.length_cons]
      push_cast
      show (a + (b :: t2).sum) ^ 2 ≤
        ((((b :: t2).length : ℕ) : ℚ) + 1) * (a ^ 2 + ((b :: t2).map (fun x => x ^ 2)).sum)
      set S := (b :: t2).sum with hS
      set Q := ((b :: t2).map (fun x => x ^ 2)).sum with hQw
      set n := (((b :: t2).length : ℕ) : ℚ) with hN
      have key : n * ((n + 1) * (a ^ 2 + Q) - (a + S) ^ 2) =
          (n * a - S) ^ 2 + (n + 1) * (n * Q - S ^ 2) := by ring
      have h4 : 0 ≤ (n * a - S) ^ 2 + (n + 1) * (n * Q - S ^ 2) :=
        add_nonneg (sq_nonneg _) (mul_nonneg (by linarith) (by linarith))
      have h5 : 0 ≤ n * ((n + 1) * (a ^ 2 + Q) - (a + S) ^ 2) := by
        rw [key]; exact h4
      have h6 : (0 : ℚ) < n := by linarith
      have h7 := (mul_nonneg_iff_of_pos_left h6).mp h5
      linarith

/-- PIL's `sum2/n - (sum/n)^2` variance is never negative. -/
theorem pyVariance_nonneg (l : List ℚ) : 0 ≤ pyVariance l := by
  unfold pyVariance
  rcases l with _ | ⟨a, t⟩
  · norm_num
  · have hn : (0 : ℚ) < (((a :: t).length : ℕ) : ℚ) := by
      have h1 : 0 < (a :: t).length := by simp
      exact_mod_cast h1
    have key := list_sq_sum_le (a :: t)
    rw [sub_nonneg, div_pow]
    rw [div_le_div_iff₀ (by positivity) hn]
    nlinarith [key, hn.le]

/-- C3.  `auto_side_choice` crops the left and right thirds, scores each by
inverse variance, and returns "Left-Center" exactly when the left region's
variance is at most the right region's variance (ties favor left),
"Right-Center" otherwise. -/
theorem auto_side_choice_left_iff (sampleL : QImage → List ℚ) (bg : QImage) :
    auto_side_choice sampleL bg = "Left-Center" ↔
      pyVariance (sampleL (left_region bg)) ≤ pyVariance (sampleL (right_region bg)) := by
  have hl := pyVariance_nonneg (sampleL (left_region bg))
  have hr := pyVariance_nonneg (sampleL (right_region bg))
  unfold auto_side_choice image_blankness_score
  set vl := pyVariance (sampleL (left_region bg)) with hvl
  set vr := pyVariance (sampleL (right_region bg)) with hvr
  have hiff : (1 / (vr + 1 / 1000000) ≤ 1 / (vl + 1 / 1000000)) ↔ vl ≤ vr := by
    rw [div_le_div_iff₀ (by linarith) (by linarith)]
    constructor <;> intro hh <;> linarith
  by_cases h : vl ≤ vr
  · rw [if_pos (hiff.mpr h)]
    simp [h]
  · rw [if_neg (fun hc => h (hiff.mp hc))]
    simp [h]

/-! ### Asset picking (C4) -/

/-- C4 (failing case).  With one candidate whose file is unreadable
(`Image.open` raises, modelled by `openImg` returning `none`), the
candidate list is non-empty, so the early `return None` is skipped, both
partitions stay empty, and `ordered[0]` raises `IndexError` instead of
skipping the unreadable file silently. -/
theorem choose_best_pipe_raises_when_all_unreadable :
    choose_best_pipe_for_background (fun _ => none) ["bad.png"] =
      Except.error "IndexError: list index out of range" := rfl

/-! ### place_image totality (C5) -/

/-- C5 (counterexample).  `place_image` is not total: with a 100×100
canvas, a 10×10 asset, target width 200 and the default margin 24 at
anchor "Right-Center", the resized overlay is 200×200, the computed x
offset is 100 − 200 − 24 = −124 < 0, and PIL's `alpha_composite` raises
`ValueError` rather than clipping. -/
theorem place_image_negative_offset_error :
    place_image (PILSize.mk 100 100) (PILSize.mk 10 10) 200 "Right-Center" 24 =
      Except.error "ValueError: Destination must be non-negative" := by
  have hr : resized_size 10 10 200 = (200, 200) := by
    unfold resized_size pyInt
    norm_num
  simp only [place_image, hr]
  simp [place_image_offset]

/-- C5 (amended).  A minimum resized dimension of 1px is always enforced,
and `place_image` succeeds — with the canvas size unchanged, any overlay
overflow past the right/bottom edge clipped silently — precisely when both
computed offset coordinates are non-negative; a negative coordinate raises
instead. -/
theorem place_image_ok_iff_offsets_nonneg (base overlay : PILSize)
    (target_w margin : ℤ) (anchor : String) :
    1 ≤ (resized_size overlay.width overlay.height target_w).1 ∧
    1 ≤ (resized_size overlay.width overlay.height target_w).2 ∧
    (place_image base overlay target_w anchor margin = Except.ok base ↔
      0 ≤ (place_image_offset (base.width : ℤ) (base.height : ℤ)
            (resized_size overlay.width overlay.height target_w).1
            (resized_size overlay.width overlay.height target_w).2 margin anchor).1 ∧
      0 ≤ (place_image_offset (base.width : ℤ) (base.height : ℤ)
            (resized_size overlay.width overlay.height target_w).1
            (resized_size overlay.width overlay.height target_w).2 margin anchor).2) := by
  refine ⟨le_max_left 1 _, le_max_left 1 _, ?_⟩
  simp only [place_image]
  set xy := place_image_offset (base.width : ℤ) (base.height : ℤ)
    (resized_size overlay.width overlay.height target_w).1
    (resized_size overlay.width overlay.height target_w).2 margin anchor with hxy
  by_cases h : xy.1 < 0 ∨ xy.2 < 0
  · rw [if_pos h]
    constructor
    · intro hcontra
      exact absurd hcontra (by simp)
    · rintro ⟨h1, h2⟩
      rcases h with h | h <;> omega
  · rw [if_neg h]
    push_neg at h
    simp [h.1, h.2]

/-! ### hex_to_rgba (C6) -/

/-- C6 (counterexample).  The input "#GGGGGG" passes the guard (a string,
leading "#", length 7) but `int("GG", 16)` raises `ValueError`; the
function does not fall back to white. -/
theorem hex_to_rgba_nonhex_raises :
    hex_to_rgba (PyVal.str "#GGGGGG") 255 =
      Except.error "ValueError: invalid literal for int() with base 16" := rfl

/-- C6 (amended).  Non-strings and strings failing the guard (no leading
"#" or length ≠ 7) fall back to (255,255,255,a) silently; a guarded input
whose three 2-character groups all parse in base 16 yields the parsed
channels; but if any group fails to parse, a `ValueError` is raised
instead of falling back. -/
theorem hex_to_rgba_guarded (a : ℤ) :
    (hex_to_rgba PyVal.nonStr a = Except.ok (255, 255, 255, a)) ∧
    (∀ s : String, (¬ ∃ c1 c2 c3 c4 c5 c6, s.data = ['#', c1, c2, c3, c4, c5, c6]) →
      hex_to_rgba (PyVal.str s) a = Except.ok (255, 255, 255, a)) ∧
    (∀ c1 c2 c3 c4 c5 c6 r g b,
      pyIntBase16Pair c1 c2 = some r → pyIntBase16Pair c3 c4 = some g →
      pyIntBase16Pair c5 c6 = some b →
      hex_to_rgba (PyVal.str (String.mk ['#', c1, c2, c3, c4, c5, c6])) a =
        Except.ok (r, g, b, a)) ∧
    (∀ c1 c2 c3 c4 c5 c6,
      (pyIntBase16Pair c1 c2 = none ∨ pyIntBase16Pair c3 c4 = none ∨
        pyIntBase16Pair c5 c6 = none) →
      hex_to_rgba (PyVal.str (String.mk ['#', c1, c2, c3, c4, c5, c6])) a =
        Except.error "ValueError: invalid literal for int() with base 16") := by
  refine ⟨rfl, ?_, ?_, ?_⟩
  · intro s hno
    show (match s.data with
      | ['#', c1, c2, c3, c4, c5, c6] =>
        match pyIntBase16Pair c1 c2, pyIntBase16Pair c3 c4, pyIntBase16Pair c5 c6 with
        | some r, some g, some b => Except.ok (r, g, b, a)
        | _, _, _ => Except.error "ValueError: invalid literal for int() with base 16"
      | _ => Except.ok (255, 255, 255, a)) = Except.ok (255, 255, 255, a)
    split
    · rename_i c1 c2 c3 c4 c5 c6 heq
      exact absurd ⟨c1, c2, c3, c4, c5, c6, heq⟩ hno
    · rfl
  · intro c1 c2 c3 c4 c5 c6 r g b h1 h2 h3
    have hdef : hex_to_rgba (PyVal.str (String.mk ['#', c1, c2, c3, c4, c5, c6])) a =
        (match pyIntBase16Pair c1 c2, pyIntBase16Pair c3 c4, pyIntBase16Pair c5 c6 with
        | some r, some g, some b => Except.ok (r, g, b, a)
        | _, _, _ => Except.error "ValueError: invalid literal for int() with base 16") := rfl
    rw [hdef, h1, h2, h3]
  · intro c1 c2 c3 c4 c5 c6 hor
    have hdef : hex_to_rgba (PyVal.str (String.mk ['#', c1, c2, c3, c4, c5, c6])) a =
        (match pyIntBase16Pair c1 c2, pyIntBase16Pair c3 c4, pyIntBase16Pair c5 c6 with
        | some r, some g, some b => Except.ok (r, g, b, a)
        | _, _, _ => Except.error "ValueError: invalid literal for int() with base 16") := rfl
    rw [hdef]
    rcases hor with h | h | h
    · rw [h]
    · rw [h]
      cases hx : pyIntBase16Pair c1 c2 <;> rfl
    · rw [h]
      cases hx : pyIntBase16Pair c1 c2
      · rfl
      · cases hy : pyIntBase16Pair c3 c4 <;> rfl

/-- Concrete instance of `hex_to_rgba_guarded`: a guard-failing string
falls back to white, and "#1a2B3c" parses to (26, 43, 60, 255). -/
theorem hex_to_rgba_guarded_witness :
    hex_to_rgba (PyVal.str "red") 255 = Except.ok (255, 255, 255, 255) ∧
    hex_to_rgba (PyVal.str (String.mk ['#', '1', 'a', '2', 'B', '3', 'c'])) 255 =
      Except.ok (26, 43, 60, 255) := by
  have h := hex_to_rgba_guarded 255
  refine ⟨h.2.1 "red" ?_, h.2.2.1 '1' 'a' '2' 'B' '3' 'c' 26 43 60
    (by decide) (by decide) (by decide)⟩
  rintro ⟨c1, c2, c3, c4, c5, c6, hcontra⟩
  have hred : ("red" : String).data = ['r', 'e', 'd'] := rfl
  rw [hred] at hcontra
  simp at hcontra

/-! ### Font size (C7) -/

/-- C7 (counterexample).  At canvas width 100 and ratio 0.135, the product
is 13.5: the source truncates (`int`) to 13 while the spec's `round` gives
14, so the font size differs from `max(12, round(W*r))`. -/
theorem draw_text_font_px_truncates_not_rounds :
    draw_text_font_px 100 (27 / 200) ≠ specFontSize 100 (27 / 200) := by
  have h1 : draw_text_font_px 100 (27 / 200) = 13 := by
    unfold draw_text_font_px pyInt
    rw [if_pos (by norm_num)]
    rw [show ⌊((100 : ℕ) : ℚ) * (27 / 200)⌋ = 13 from by norm_num]
    decide
  have h2 : specFontSize 100 (27 / 200) = 14 := by
    unfold specFontSize
    rw [show round (((100 : ℕ) : ℚ) * (27 / 200)) = 14 from by
      rw [round_eq]; norm_num]
    decide
  rw [h1, h2]
  decide

/-- C7 (amended).  For every canvas width and non-negative ratio, the font
size is `max(12, ⌊W * r⌋)` — floor (truncation toward zero), not rounding
to nearest. -/
theorem draw_text_font_px_eq_floor (W : ℕ) (ratio : ℚ) (h : 0 ≤ ratio) :
    draw_text_font_px W ratio = max 12 ⌊(W : ℚ) * ratio⌋ := by
  unfold draw_text_font_px pyInt
  rw [if_pos (mul_nonneg (by positivity) h)]

/-- Concrete instance of `draw_text_font_px_eq_floor` at the source's
headline ratio 0.075 on a 1080-wide canvas. -/
theorem draw_text_font_px_eq_floor_witness :
    draw_text_font_px 1080 (3 / 40) = max 12 ⌊((1080 : ℕ) : ℚ) * (3 / 40)⌋ :=
  draw_text_font_px_eq_floor 1080 (3 / 40) (by norm_num)

/-! ### Fallback gradient (C8) -/

/-- C8.  `gradient_fallback` is a total function of its inputs
(deterministic, never fails): for positive dimensions it returns an image
of exactly the requested size, every pixel is the two-stop blend of the
dark top (20,20,28) and warm bottom (120,60,20) through the resized
vertical luminance ramp, and `call_ai_background` substitutes it whenever
the generator URL is unconfigured, the prompt is blank, or the guarded
network/decode block fails. -/
theorem gradient_fallback_never_fails (sample : (ℕ → ℕ → ℕ) → ℕ → ℕ → ℕ → ℕ → ℕ)
    (w h : ℕ) (url prompt : String) (net : Option RGBAImage)
    (hw : 0 < w) (hh : 0 < h) :
    ((gradient_fallback sample w h).width = w ∧ (gradient_fallback sample w h).height = h) ∧
    (∀ x y, (gradient_fallback sample w h).pix x y =
      blendPix (20, 20, 28, 255) (120, 60, 20, 255) (sample linGradientL w h x y)) ∧
    ((url = "" ∨ pyStrip prompt = "" ∨ net = none) →
      call_ai_background sample url net prompt w h = gradient_fallback sample w h) := by
  refine ⟨⟨rfl, rfl⟩, fun x y => rfl, ?_⟩
  rintro (h1 | h1 | h1)
  · simp [call_ai_background, h1]
  · simp [call_ai_background, h1]
  · subst h1
    unfold call_ai_background
    split <;> rfl

/-- Concrete instance of `gradient_fallback_never_fails` at 1080×1080 with
an unconfigured generator URL. -/
theorem gradient_fallback_never_fails_witness :
    (gradient_fallback (fun f _ _ x y => f x y) 1080 1080).width = 1080 ∧
    (gradient_fallback (fun f _ _ x y => f x y) 1080 1080).height = 1080 ∧
    call_ai_background (fun f _ _ x y => f x y) "" none "Warm golden festive lights" 1080 1080 =
      gradient_fallback (fun f _ _ x y => f x y) 1080 1080 := by
  have h := gradient_fallback_never_fails (fun f _ _ x y => f x y) 1080 1080 ""
    "Warm golden festive lights" none (by norm_num) (by norm_num)
  exact ⟨h.1.1, h.1.2, h.2.2 (Or.inl rfl)⟩
